import Mathlib

/-!
Verification of the `wilson` crate: the Wilson score confidence interval
for a binomial proportion.

The crate consists of a single pure function

  pub fn wilson(successes: FP, trials: FP, z: FP) -> WilsonResult

over a build-time floating-point type `FP`.  We embed it shallowly over the
real numbers: each arithmetic operation of the source becomes the
corresponding exact real operation, and `FP::sqrt` becomes `Real.sqrt`.
-/

namespace Wilson

/-- Result of the `wilson` calculation: lower and upper bound of a Wilson
confidence interval (struct `WilsonResult` in `src/lib.rs`). -/
structure WilsonResult where
  low : ℝ
  high : ℝ

/-- Argument of the square root taken on the general path of `wilson`
(`s * (n - s) / n + z * z / 4.0` in `src/lib.rs`, line 68). -/
noncomputable def sqrtArg (s n z : ℝ) : ℝ :=
  s * (n - s) / n + z * z / 4.0

/-- Shallow embedding of `wilson` from `src/lib.rs`:
if `trials <= 0.001` it returns the degenerate interval `[0, 1]`;
otherwise `p = (s + 0.5*z*z) / (n + z*z)`,
`d = z / (n + z*z) * sqrt(s*(n - s)/n + z*z/4.0)`, and the result is
`[p - d, p + d]`. -/
noncomputable def wilson (successes trials z : ℝ) : WilsonResult :=
  if trials ≤ 0.001 then
    { low := 0.0, high := 1.0 }
  else
    let n := trials
    let s := successes
    let p := (s + 0.5 * z * z) / (n + z * z)
    let d := z / (n + z * z) * Real.sqrt (sqrtArg s n z)
    let high := p + d
    let low := p - d
    { low := low, high := high }

/-- Modelled from the spec: section 7 of the spec describes a failure
semantics that the code leaves implicit — the function "may produce a
runtime failure (e.g., from taking the square root of a negative argument)"
on out-of-domain input.  This variant makes that failure branch explicit:
it returns `none` exactly when the general path would take the square root
of a negative number, and otherwise the `wilson` result. -/
noncomputable def wilsonChecked (successes trials z : ℝ) : Option WilsonResult :=
  if trials ≤ 0.001 then
    some { low := 0.0, high := 1.0 }
  else if sqrtArg successes trials z < 0 then
    none
  else
    some (wilson successes trials z)

/-- Width of a returned interval. -/
def intervalWidth (r : WilsonResult) : ℝ :=
  r.high - r.low

/-! ### Basic unfolding lemmas -/

theorem wilson_low_general (s n z : ℝ) (h : 0.001 < n) :
    (wilson s n z).low =
      (s + 0.5 * z * z) / (n + z * z)
        - z / (n + z * z) * Real.sqrt (sqrtArg s n z) := by
  rw [wilson, if_neg (not_le.mpr h)]

theorem wilson_high_general (s n z : ℝ) (h : 0.001 < n) :
    (wilson s n z).high =
      (s + 0.5 * z * z) / (n + z * z)
        + z / (n + z * z) * Real.sqrt (sqrtArg s n z) := by
  rw [wilson, if_neg (not_le.mpr h)]

theorem sqrtArg_nonneg (s n z : ℝ) (hs : 0 ≤ s) (hsn : s ≤ n) :
    0 ≤ sqrtArg s n z := by
  have h1 : 0 ≤ s * (n - s) / n :=
    div_nonneg (mul_nonneg hs (sub_nonneg.mpr hsn)) (hs.trans hsn)
  have h2 : 0 ≤ z * z / 4.0 := div_nonneg (mul_self_nonneg z) (by norm_num)
  have := add_nonneg h1 h2
  simpa [sqrtArg] using this

/-! ### C1 and C2: the two branches of the function -/

/-- C1: for every input with `trials > 0.001`, `wilson` returns exactly the
closed-form Wilson score interval: with `n = trials`, `s = successes`,
`low = p - d` and `high = p + d` where `p = (s + 0.5*z^2)/(n + z^2)` and
`d = (z/(n + z^2)) * sqrt(s*(n - s)/n + z^2/4)`. -/
theorem wilson_general_formula (s n z : ℝ) (h : 0.001 < n) :
    (wilson s n z).low =
      (s + 0.5 * z ^ 2) / (n + z ^ 2)
        - z / (n + z ^ 2) * Real.sqrt (s * (n - s) / n + z ^ 2 / 4)
    ∧ (wilson s n z).high =
      (s + 0.5 * z ^ 2) / (n + z ^ 2)
        + z / (n + z ^ 2) * Real.sqrt (s * (n - s) / n + z ^ 2 / 4) := by
  have harg : sqrtArg s n z = s * (n - s) / n + z ^ 2 / 4 := by
    rw [sqrtArg]; ring
  rw [wilson_low_general s n z h, wilson_high_general s n z h, harg]
  constructor <;> ring_nf

/-- Witness for C1 at the concrete input `(1, 2, 2)`. -/
theorem wilson_general_formula_witness :
    (wilson 1 2 2).low =
      (1 + 0.5 * 2 ^ 2) / (2 + 2 ^ 2)
        - 2 / (2 + 2 ^ 2) * Real.sqrt (1 * (2 - 1) / 2 + 2 ^ 2 / 4)
    ∧ (wilson 1 2 2).high =
      (1 + 0.5 * 2 ^ 2) / (2 + 2 ^ 2)
        + 2 / (2 + 2 ^ 2) * Real.sqrt (1 * (2 - 1) / 2 + 2 ^ 2 / 4) :=
  wilson_general_formula 1 2 2 (by norm_num)

/-- C2: for every `successes` and every `z`, if `trials <= 0.001` then
`wilson` returns exactly `low = 0.0` and `high = 1.0`, bypassing the general
formula, regardless of `successes`. -/
theorem wilson_degenerate (s n z : ℝ) (h : n ≤ 0.001) :
    (wilson s n z).low = 0.0 ∧ (wilson s n z).high = 1.0 := by
  rw [wilson, if_pos h]
  exact ⟨rfl, rfl⟩

/-- Witness for C2 at the concrete input `(0, 0, 2)` (spec scenario 5). -/
theorem wilson_degenerate_witness :
    (wilson 0 0 2).low = 0.0 ∧ (wilson 0 0 2).high = 1.0 :=
  wilson_degenerate 0 0 2 (by norm_num)

/-! ### Helper: comparing `z * sqrt A` against a nonnegative bound -/

theorem mul_sqrt_le_of_sq_le (z A c : ℝ) (hz : 0 ≤ z) (hc : 0 ≤ c)
    (h : z * z * A ≤ c ^ 2) : z * Real.sqrt A ≤ c := by
  have h1 : z * Real.sqrt A = Real.sqrt (z * z * A) := by
    rw [Real.sqrt_mul (mul_self_nonneg z) A, Real.sqrt_mul_self hz]
  rw [h1]
  exact (Real.sqrt_le_left hc).mpr h

theorem sqrtArg_as_div (s n z : ℝ) (hn0 : (0:ℝ) < n) :
    sqrtArg s n z = (4 * (s * (n - s)) + n * (z * z)) / (4 * n) := by
  rw [sqrtArg]
  field_simp
  ring

/-! ### C4: totality / safety of the square root -/

/-- C4: for every well-formed input (`0 ≤ successes ≤ trials`, `z ≥ 0`),
`wilson` always returns a value and never fails: the argument of the square
root, `s*(n - s)/n + z^2/4`, is non-negative, so the square root is
well-defined and the failure branch (modelled by `wilsonChecked` returning
`none`) is unreachable. -/
theorem wilson_total (s n z : ℝ) (hs : 0 ≤ s) (hsn : s ≤ n) (hz : 0 ≤ z) :
    0 ≤ sqrtArg s n z ∧ wilsonChecked s n z = some (wilson s n z) := by
  have harg := sqrtArg_nonneg s n z hs hsn
  refine ⟨harg, ?_⟩
  by_cases h : n ≤ 0.001
  · rw [wilsonChecked, if_pos h, wilson, if_pos h]
  · rw [wilsonChecked, if_neg h, if_neg (not_lt.mpr harg)]

/-- Witness for C4 at the concrete input `(10, 20, 2)`. -/
theorem wilson_total_witness :
    0 ≤ sqrtArg 10 20 2 ∧ wilsonChecked 10 20 2 = some (wilson 10 20 2) :=
  wilson_total 10 20 2 (by norm_num) (by norm_num) (by norm_num)

/-! ### C3: the interval is ordered and contained in [0, 1] -/

/-- C3: for every well-formed, non-degenerate input (`0 ≤ successes ≤ trials`,
`trials > 0.001`, `z ≥ 0`), the result of `wilson` satisfies
`0 ≤ low ≤ high ≤ 1`. -/
theorem wilson_bounds (s n z : ℝ) (hs : 0 ≤ s) (hsn : s ≤ n)
    (hn : 0.001 < n) (hz : 0 ≤ z) :
    0 ≤ (wilson s n z).low ∧ (wilson s n z).low ≤ (wilson s n z).high
      ∧ (wilson s n z).high ≤ 1 := by
  have hn0 : (0:ℝ) < n := lt_trans (by norm_num) hn
  have hnz : (0:ℝ) < n + z * z := by nlinarith [mul_self_nonneg z]
  have hsqrt : 0 ≤ Real.sqrt (sqrtArg s n z) := Real.sqrt_nonneg _
  have hargeq := sqrtArg_as_div s n z hn0
  rw [wilson_low_general s n z hn, wilson_high_general s n z hn]
  have hd : 0 ≤ z / (n + z * z) * Real.sqrt (sqrtArg s n z) :=
    mul_nonneg (div_nonneg hz hnz.le) hsqrt
  refine ⟨?_, by linarith, ?_⟩
  · have key : z * Real.sqrt (sqrtArg s n z) ≤ s + 0.5 * z * z := by
      apply mul_sqrt_le_of_sq_le _ _ _ hz (by nlinarith [mul_self_nonneg z])
      rw [hargeq]
      have e : z * z * ((4 * (s * (n - s)) + n * (z * z)) / (4 * n))
          = z * z * (4 * (s * (n - s)) + n * (z * z)) / (4 * n) := by ring
      rw [e, div_le_iff₀ (by linarith : (0:ℝ) < 4 * n)]
      nlinarith [sq_nonneg (z * s), mul_nonneg (mul_nonneg hn0.le hs) hs]
    have e1 : (s + 0.5 * z * z) / (n + z * z)
        - z / (n + z * z) * Real.sqrt (sqrtArg s n z)
        = (s + 0.5 * z * z - z * Real.sqrt (sqrtArg s n z)) / (n + z * z) := by
      ring
    rw [e1]
    exact div_nonneg (by linarith) hnz.le
  · have key2 : z * Real.sqrt (sqrtArg s n z) ≤ (n - s) + 0.5 * z * z := by
      apply mul_sqrt_le_of_sq_le _ _ _ hz
        (by nlinarith [mul_self_nonneg z, sub_nonneg.mpr hsn])
      rw [hargeq]
      have e : z * z * ((4 * (s * (n - s)) + n * (z * z)) / (4 * n))
          = z * z * (4 * (s * (n - s)) + n * (z * z)) / (4 * n) := by ring
      rw [e, div_le_iff₀ (by linarith : (0:ℝ) < 4 * n)]
      nlinarith [sq_nonneg (z * (n - s)), mul_nonneg hn0.le (sq_nonneg (n - s))]
    have e2 : (s + 0.5 * z * z) / (n + z * z)
        + z / (n + z * z) * Real.sqrt (sqrtArg s n z)
        = (s + 0.5 * z * z + z * Real.sqrt (sqrtArg s n z)) / (n + z * z) := by
      ring
    rw [e2, div_le_one hnz]
    linarith

/-- Witness for C3 at the concrete input `(10, 20, 2)`. -/
theorem wilson_bounds_witness :
    0 ≤ (wilson 10 20 2).low
      ∧ (wilson 10 20 2).low ≤ (wilson 10 20 2).high
      ∧ (wilson 10 20 2).high ≤ 1 :=
  wilson_bounds 10 20 2 (by norm_num) (by norm_num) (by norm_num) (by norm_num)

/-! ### Interval width and its monotonicity -/

theorem intervalWidth_general (s n z : ℝ) (h : 0.001 < n) :
    intervalWidth (wilson s n z) =
      2 * (z / (n + z * z) * Real.sqrt (sqrtArg s n z)) := by
  rw [intervalWidth, wilson_low_general s n z h, wilson_high_general s n z h]
  ring

theorem intervalWidth_nonneg (s n z : ℝ) (hn : 0.001 < n) (hz : 0 ≤ z) :
    0 ≤ intervalWidth (wilson s n z) := by
  have hn0 : (0:ℝ) < n := lt_trans (by norm_num) hn
  have hnz : (0:ℝ) < n + z * z := by nlinarith [mul_self_nonneg z]
  rw [intervalWidth_general s n z hn]
  exact mul_nonneg (by norm_num)
    (mul_nonneg (div_nonneg hz hnz.le) (Real.sqrt_nonneg _))

theorem intervalWidth_sq (s n z : ℝ) (hs : 0 ≤ s) (hsn : s ≤ n)
    (hn : 0.001 < n) :
    (intervalWidth (wilson s n z)) ^ 2 =
      z * z * (4 * (s * (n - s)) + n * (z * z)) / (n * (n + z * z) ^ 2) := by
  have hn0 : (0:ℝ) < n := lt_trans (by norm_num) hn
  have hnz : (0:ℝ) < n + z * z := by nlinarith [mul_self_nonneg z]
  have harg := sqrtArg_nonneg s n z hs hsn
  rw [intervalWidth_general s n z hn]
  have e : (2 * (z / (n + z * z) * Real.sqrt (sqrtArg s n z))) ^ 2
      = 4 * ((z / (n + z * z)) ^ 2 * Real.sqrt (sqrtArg s n z) ^ 2) := by
    ring
  rw [e, Real.sq_sqrt harg, sqrtArg_as_div s n z hn0]
  rw [div_pow]
  field_simp
  ring

/-! ### C5: the width is monotone in z -/

/-- C5: for fixed `successes` and `trials` with `0 ≤ successes ≤ trials` and
`trials > 0.001`, the interval width `high - low` returned by `wilson` is
monotonically non-decreasing in `z` over `z ≥ 0`: if `0 ≤ z1 ≤ z2` then the
width at `z2` is at least the width at `z1`. -/
theorem wilson_width_mono_z (s n z1 z2 : ℝ) (hs : 0 ≤ s) (hsn : s ≤ n)
    (hn : 0.001 < n) (hz1 : 0 ≤ z1) (hz12 : z1 ≤ z2) :
    intervalWidth (wilson s n z1) ≤ intervalWidth (wilson s n z2) := by
  have hn0 : (0:ℝ) < n := lt_trans (by norm_num) hn
  have hz2 : 0 ≤ z2 := hz1.trans hz12
  have h1 := intervalWidth_nonneg s n z1 hn hz1
  have h2 := intervalWidth_nonneg s n z2 hn hz2
  have hB : 0 ≤ s * (n - s) := mul_nonneg hs (sub_nonneg.mpr hsn)
  have hab : z1 * z1 ≤ z2 * z2 := mul_self_le_mul_self hz1 hz12
  have hsq : (intervalWidth (wilson s n z1)) ^ 2
      ≤ (intervalWidth (wilson s n z2)) ^ 2 := by
    rw [intervalWidth_sq s n z1 hs hsn hn, intervalWidth_sq s n z2 hs hsn hn]
    have hnz1 : (0:ℝ) < n + z1 * z1 := by nlinarith [mul_self_nonneg z1]
    have hnz2 : (0:ℝ) < n + z2 * z2 := by nlinarith [mul_self_nonneg z2]
    rw [div_le_div_iff (mul_pos hn0 (pow_pos hnz1 2)) (mul_pos hn0 (pow_pos hnz2 2))]
    have key : z2 * z2 * (4 * (s * (n - s)) + n * (z2 * z2)) * (n * (n + z1 * z1) ^ 2)
        - z1 * z1 * (4 * (s * (n - s)) + n * (z1 * z1)) * (n * (n + z2 * z2) ^ 2)
        = n * ((z2 * z2 - z1 * z1)
            * (4 * (s * (n - s)) * n ^ 2 + n ^ 3 * (z1 * z1) + n ^ 3 * (z2 * z2)
              + n ^ 2 * ((z1 * z1) * (z2 * z2))
              + (z1 * z1) * (z2 * z2) * (n ^ 2 - 4 * (s * (n - s))))) := by
      ring
    have hlast : 0 ≤ n ^ 2 - 4 * (s * (n - s)) := by nlinarith [sq_nonneg (n - 2 * s)]
    have hbr : 0 ≤ 4 * (s * (n - s)) * n ^ 2 + n ^ 3 * (z1 * z1) + n ^ 3 * (z2 * z2)
        + n ^ 2 * ((z1 * z1) * (z2 * z2))
        + (z1 * z1) * (z2 * z2) * (n ^ 2 - 4 * (s * (n - s))) := by
      have t1 : 0 ≤ 4 * (s * (n - s)) * n ^ 2 :=
        mul_nonneg (mul_nonneg (by norm_num) hB) (sq_nonneg n)
      have t2 : 0 ≤ n ^ 3 * (z1 * z1) :=
        mul_nonneg (by positivity) (mul_self_nonneg z1)
      have t3 : 0 ≤ n ^ 3 * (z2 * z2) :=
        mul_nonneg (by positivity) (mul_self_nonneg z2)
      have t4 : 0 ≤ n ^ 2 * ((z1 * z1) * (z2 * z2)) :=
        mul_nonneg (sq_nonneg n) (mul_nonneg (mul_self_nonneg z1) (mul_self_nonneg z2))
      have t5 : 0 ≤ (z1 * z1) * (z2 * z2) * (n ^ 2 - 4 * (s * (n - s))) :=
        mul_nonneg (mul_nonneg (mul_self_nonneg z1) (mul_self_nonneg z2)) hlast
      linarith
    have hfin : 0 ≤ n * ((z2 * z2 - z1 * z1)
        * (4 * (s * (n - s)) * n ^ 2 + n ^ 3 * (z1 * z1) + n ^ 3 * (z2 * z2)
          + n ^ 2 * ((z1 * z1) * (z2 * z2))
          + (z1 * z1) * (z2 * z2) * (n ^ 2 - 4 * (s * (n - s))))) :=
      mul_nonneg hn0.le (mul_nonneg (sub_nonneg.mpr hab) hbr)
    linarith
  have h := Real.sqrt_le_sqrt hsq
  rwa [Real.sqrt_sq h1, Real.sqrt_sq h2] at h

/-- Witness for C5 at the concrete input `s = 10`, `n = 20`, `z1 = 1`, `z2 = 2`. -/
theorem wilson_width_mono_z_witness :
    intervalWidth (wilson 10 20 1) ≤ intervalWidth (wilson 10 20 2) :=
  wilson_width_mono_z 10 20 1 2 (by norm_num) (by norm_num) (by norm_num)
    (by norm_num) (by norm_num)

/-! ### C6: the width does not grow with more evidence at a fixed proportion -/

/-- C6: for a fixed proportion `0 ≤ r ≤ 1` and fixed `z ≥ 0`, scaling trials
up while keeping `successes = r * trials` (with both trial counts above
`0.001`) does not increase the interval width: if `0.001 < n1 ≤ n2` then the
width of `wilson (r*n2) n2 z` is at most the width of `wilson (r*n1) n1 z`. -/
theorem wilson_width_antitone_trials (r z n1 n2 : ℝ) (hr0 : 0 ≤ r) (hr1 : r ≤ 1)
    (hz : 0 ≤ z) (hn1 : 0.001 < n1) (hn12 : n1 ≤ n2) :
    intervalWidth (wilson (r * n2) n2 z) ≤ intervalWidth (wilson (r * n1) n1 z) := by
  have hn2 : 0.001 < n2 := lt_of_lt_of_le hn1 hn12
  have hn10 : (0:ℝ) < n1 := lt_trans (by norm_num) hn1
  have hn20 : (0:ℝ) < n2 := lt_trans (by norm_num) hn2
  have hs1 : 0 ≤ r * n1 := mul_nonneg hr0 hn10.le
  have hs2 : 0 ≤ r * n2 := mul_nonneg hr0 hn20.le
  have hsn1 : r * n1 ≤ n1 := by nlinarith
  have hsn2 : r * n2 ≤ n2 := by nlinarith
  have h1 := intervalWidth_nonneg (r * n1) n1 z hn1 hz
  have h2 := intervalWidth_nonneg (r * n2) n2 z hn2 hz
  have hsq : (intervalWidth (wilson (r * n2) n2 z)) ^ 2
      ≤ (intervalWidth (wilson (r * n1) n1 z)) ^ 2 := by
    rw [intervalWidth_sq (r * n2) n2 z hs2 hsn2 hn2,
      intervalWidth_sq (r * n1) n1 z hs1 hsn1 hn1]
    have hnz1 : (0:ℝ) < n1 + z * z := by nlinarith [mul_self_nonneg z]
    have hnz2 : (0:ℝ) < n2 + z * z := by nlinarith [mul_self_nonneg z]
    rw [div_le_div_iff (mul_pos hn20 (pow_pos hnz2 2)) (mul_pos hn10 (pow_pos hnz1 2))]
    have key : z * z * (4 * ((r * n1) * (n1 - r * n1)) + n1 * (z * z))
          * (n2 * (n2 + z * z) ^ 2)
        - z * z * (4 * ((r * n2) * (n2 - r * n2)) + n2 * (z * z))
          * (n1 * (n1 + z * z) ^ 2)
        = z * z * n1 * n2 * ((n2 - n1)
            * (4 * (r * (1 - r)) * (n1 * n2) + (z * z) * n1 + (z * z) * n2
              + (z * z) * (z * z) + (z * z) * (z * z) * (1 - 2 * r) ^ 2)) := by
      ring
    have hbr : 0 ≤ 4 * (r * (1 - r)) * (n1 * n2) + (z * z) * n1 + (z * z) * n2
        + (z * z) * (z * z) + (z * z) * (z * z) * (1 - 2 * r) ^ 2 := by
      have t1 : 0 ≤ 4 * (r * (1 - r)) * (n1 * n2) :=
        mul_nonneg (mul_nonneg (by norm_num)
          (mul_nonneg hr0 (sub_nonneg.mpr hr1))) (mul_nonneg hn10.le hn20.le)
      have t2 : 0 ≤ (z * z) * n1 := mul_nonneg (mul_self_nonneg z) hn10.le
      have t3 : 0 ≤ (z * z) * n2 := mul_nonneg (mul_self_nonneg z) hn20.le
      have t4 : 0 ≤ (z * z) * (z * z) :=
        mul_nonneg (mul_self_nonneg z) (mul_self_nonneg z)
      have t5 : 0 ≤ (z * z) * (z * z) * (1 - 2 * r) ^ 2 :=
        mul_nonneg t4 (sq_nonneg _)
      linarith
    have hfin : 0 ≤ z * z * n1 * n2 * ((n2 - n1)
        * (4 * (r * (1 - r)) * (n1 * n2) + (z * z) * n1 + (z * z) * n2
          + (z * z) * (z * z) + (z * z) * (z * z) * (1 - 2 * r) ^ 2)) :=
      mul_nonneg (mul_nonneg (mul_nonneg (mul_self_nonneg z) hn10.le) hn20.le)
        (mul_nonneg (sub_nonneg.mpr hn12) hbr)
    linarith
  have h := Real.sqrt_le_sqrt hsq
  rwa [Real.sqrt_sq h2, Real.sqrt_sq h1] at h

/-- Witness for C6 at the concrete input `r = 0.5`, `z = 2`, `n1 = 2`, `n2 = 20`. -/
theorem wilson_width_antitone_trials_witness :
    intervalWidth (wilson (0.5 * 20) 20 2) ≤ intervalWidth (wilson (0.5 * 2) 2 2) :=
  wilson_width_antitone_trials 0.5 2 2 20 (by norm_num) (by norm_num)
    (by norm_num) (by norm_num) (by norm_num)

/-! ### C7: the lower bound at zero successes -/

/-- C7 counterexample: at `successes = 0`, `trials = 20`, `z = 2` the lower
bound is exactly `0` even though `z ≠ 0`, refuting the claim that `low`
evaluates to exactly `0` only if `z = 0`. -/
theorem wilson_zero_successes_counterexample :
    (2:ℝ) ≠ 0 ∧ (wilson 0 20 2).low = 0 := by
  refine ⟨by norm_num, ?_⟩
  rw [wilson_low_general 0 20 2 (by norm_num)]
  have harg : sqrtArg 0 20 2 = 1 := by rw [sqrtArg]; norm_num
  rw [harg, Real.sqrt_one]
  norm_num

/-- C7 (amended): for `successes = 0`, `trials > 0.001` and `z ≥ 0`, the lower
bound returned by `wilson` is exactly `0` for every such `z`, not only for
`z = 0`: in exact arithmetic the center shift and the half-width cancel. -/
theorem wilson_zero_successes_low (n z : ℝ) (hn : 0.001 < n) (hz : 0 ≤ z) :
    (wilson 0 n z).low = 0 := by
  have hn0 : (0:ℝ) < n := lt_trans (by norm_num) hn
  have hnz : (0:ℝ) < n + z * z := by nlinarith [mul_self_nonneg z]
  rw [wilson_low_general 0 n z hn]
  have harg : sqrtArg 0 n z = (z / 2) ^ 2 := by
    rw [sqrtArg]
    field_simp
    ring
  rw [harg, Real.sqrt_sq (by linarith : (0:ℝ) ≤ z / 2)]
  field_simp
  ring

/-- Witness for the amended C7 at the concrete input `n = 10`, `z = 3`. -/
theorem wilson_zero_successes_low_witness :
    (wilson 0 10 3).low = 0 :=
  wilson_zero_successes_low 10 3 (by norm_num) (by norm_num)

/-! ### C8: the degenerate interval is never produced on the general path -/

/-- C8: for every well-formed input with `trials > 0.001`
(`0 ≤ successes ≤ trials`, `z ≥ 0`), `wilson` never returns the exact pair
`low = 0` and `high = 1`; that result is reserved for the degenerate
short-circuit. -/
theorem wilson_no_trivial_interval (s n z : ℝ) (hs : 0 ≤ s) (hsn : s ≤ n)
    (hn : 0.001 < n) (hz : 0 ≤ z) :
    ¬ ((wilson s n z).low = 0 ∧ (wilson s n z).high = 1) := by
  have hn0 : (0:ℝ) < n := lt_trans (by norm_num) hn
  have hnz : (0:ℝ) < n + z * z := by nlinarith [mul_self_nonneg z]
  rw [wilson_low_general s n z hn, wilson_high_general s n z hn]
  rintro ⟨h1, h2⟩
  have hp : (s + 0.5 * z * z) / (n + z * z) = 1 / 2 := by linarith
  have hd : z / (n + z * z) * Real.sqrt (sqrtArg s n z) = 1 / 2 := by linarith
  have hseq : 2 * s = n := by
    have := hp
    field_simp at this
    linarith
  have harg : sqrtArg s n z = (n + z * z) / 4 := by
    rw [sqrtArg]
    field_simp
    nlinarith [hseq]
  have hzs : z * Real.sqrt (sqrtArg s n z) = (n + z * z) / 2 := by
    have := hd
    field_simp at this
    nlinarith [this]
  have hsq : (z * Real.sqrt (sqrtArg s n z)) ^ 2
      = z ^ 2 * ((n + z * z) / 4) := by
    rw [mul_pow, harg, Real.sq_sqrt (by positivity : (0:ℝ) ≤ (n + z * z) / 4)]
  rw [hzs] at hsq
  nlinarith [hsq, mul_self_nonneg z]

/-- Witness for C8 at the concrete input `(1, 2, 2)`. -/
theorem wilson_no_trivial_interval_witness :
    ¬ ((wilson 1 2 2).low = 0 ∧ (wilson 1 2 2).high = 1) :=
  wilson_no_trivial_interval 1 2 2 (by norm_num) (by norm_num) (by norm_num)
    (by norm_num)

/-! ### C9: the fractional near-zero-trials scenario takes the general path -/

/-- C9: `wilson 0.005 0.01 2` follows the general formula (since
`0.01 > 0.001`) and returns `low` within `1e-6` of `0.000623831` and `high`
within `1e-6` of `0.999376`. -/
theorem wilson_fractional_example :
    |(wilson 0.005 0.01 2).low - 0.000623831| < 1e-6
      ∧ |(wilson 0.005 0.01 2).high - 0.999376| < 1e-6 := by
  have hlow := wilson_low_general 0.005 0.01 2 (by norm_num)
  have hhigh := wilson_high_general 0.005 0.01 2 (by norm_num)
  have harg : sqrtArg 0.005 0.01 2 = 1.0025 := by rw [sqrtArg]; norm_num
  rw [harg] at hlow hhigh
  have h1 : (1.00124921:ℝ) < Real.sqrt 1.0025 :=
    (Real.lt_sqrt (by norm_num)).mpr (by norm_num)
  have h2 : Real.sqrt (1.0025:ℝ) < 1.00124923 :=
    (Real.sqrt_lt' (by norm_num)).mpr (by norm_num)
  rw [hlow, hhigh]
  set x := Real.sqrt 1.0025 with hxdef
  constructor
  · rw [abs_lt]
    constructor <;> nlinarith [h1, h2]
  · rw [abs_lt]
    constructor <;> nlinarith [h1, h2]

/-! ### C10: complement symmetry -/

/-- C10: for every input with `0 ≤ successes ≤ trials`, `trials > 0.001` and
`z ≥ 0`, the lower bound of `wilson successes trials z` equals one minus the
upper bound of `wilson (trials - successes) trials z`: swapping successes and
failures reflects the interval about `1/2`. -/
theorem wilson_complement (s n z : ℝ) (hs : 0 ≤ s) (hsn : s ≤ n)
    (hn : 0.001 < n) (hz : 0 ≤ z) :
    (wilson s n z).low = 1 - (wilson (n - s) n z).high := by
  have hn0 : (0:ℝ) < n := lt_trans (by norm_num) hn
  have hnz : (0:ℝ) < n + z * z := by nlinarith [mul_self_nonneg z]
  have hne : n + z * z ≠ 0 := ne_of_gt hnz
  rw [wilson_low_general s n z hn, wilson_high_general (n - s) n z hn]
  have harg : sqrtArg (n - s) n z = sqrtArg s n z := by
    rw [sqrtArg, sqrtArg]
    ring
  rw [harg]
  field_simp
  ring

/-- Witness for C10 at the concrete input `(2, 20, 2)`. -/
theorem wilson_complement_witness :
    (wilson 2 20 2).low = 1 - (wilson (20 - 2) 20 2).high :=
  wilson_complement 2 20 2 (by norm_num) (by norm_num) (by norm_num) (by norm_num)

end Wilson
